import Mathlib

/-!
Verification of `unfolder.py` (class `SimpleExtractor` and its driver loop).

The embedding models:
* the archive classifier `_is_archive` as a pure predicate on path strings,
  with Python's `str.lower` / `str.endswith` / slicing modelled directly
  over the strings' character lists;
* the placement resolver `_get_extraction_path` over paths split into
  parent components and a final name, with `pathlib.Path.stem` semantics;
* the transactional extractor `_extract_with_cleanup` over an abstract
  directory state (`Option (Finset String)`: `none` = directory absent,
  `some s` = directory present with entry set `s`); the codec writes a set
  of entries into the target directory and reports success or failure;
* the driver `extract_all` as a fuel-indexed loop over an abstract
  filesystem (the duplicate-free list of file paths currently present),
  with codec outcomes and produced files supplied by an environment
  oracle, and the deferred deletion pass `_delete_archives`.
-/

namespace Unfolder

/-- ASCII lowercasing of one character (the fragment of Python `str.lower`
exercised by path suffix matching). -/
def lowerChar (c : Char) : Char :=
  if 65 ≤ c.toNat ∧ c.toNat ≤ 90 then Char.ofNat (c.toNat + 32) else c

/-- Python `str.lower` on a path string, character by character. -/
def strLower (s : String) : String := ⟨s.data.map lowerChar⟩

/-- Python `str.endswith`: the suffix's characters are a suffix of the
string's characters. -/
def strEndsWith (s suff : String) : Bool := suff.data.isSuffixOf s.data

/-- Python slicing `s[:-n]`: drop the last `n` characters. -/
def strDropRight (s : String) (n : Nat) : String :=
  ⟨s.data.take (s.data.length - n)⟩

/-- The recognized archive suffixes, in the order they appear in
`SimpleExtractor._is_archive`. -/
def archive_extensions : List String :=
  [".zip", ".rar", ".7z", ".tar", ".gz", ".bz2", ".tgz", ".tar.gz", ".tar.bz2"]

/-- `SimpleExtractor._is_archive`: lowercase the path string and test whether
it ends with any recognized suffix. Pure string predicate, no filesystem
access. -/
def is_archive (file_path : String) : Bool :=
  archive_extensions.any (fun ext => strEndsWith (strLower file_path) ext)

/-- Mutable state of a `SimpleExtractor` instance: constructor arguments,
the processed set, the pending-deletion list, and the `stats` counters
(`total_size` is omitted: byte sizes come from `stat` calls that the claims
do not touch). -/
structure Extractor where
  source_folder : List String
  delete_after : Bool
  maintain_hierarchy : Bool
  processed_files : Finset String
  pending_deletions : List String
  extracted : Nat
  failed : Nat
  deleted : Nat
  cleaned_up : Nat
deriving DecidableEq

/-- `SimpleExtractor.__init__`: empty processed set, empty pending-deletion
list, all counters zero. -/
def Extractor.init (source_folder : List String)
    (delete_after maintain_hierarchy : Bool) : Extractor :=
  { source_folder := source_folder
    delete_after := delete_after
    maintain_hierarchy := maintain_hierarchy
    processed_files := ∅
    pending_deletions := []
    extracted := 0
    failed := 0
    deleted := 0
    cleaned_up := 0 }

/-- Index of the last occurrence of `c` in `cs` (Python `str.rfind`),
or `none` when `c` does not occur. -/
def rfindChar (cs : List Char) (c : Char) : Option Nat :=
  match cs with
  | [] => none
  | a :: rest =>
    match rfindChar rest c with
    | some i => some (i + 1)
    | none => if a = c then some 0 else none

/-- `pathlib.PurePath.stem`: the final name without its last suffix.
CPython takes the last `.` at index `i` and strips from it only when
`0 < i < len(name) - 1`. -/
def pyStem (name : String) : String :=
  let cs := name.data
  match rfindChar cs '.' with
  | none => name
  | some i => if 0 < i ∧ i < cs.length - 1 then ⟨cs.take i⟩ else name

/-- `SimpleExtractor._get_extraction_path`: parent directory plus the stem,
with a trailing `.tar` stripped from the stem (double extensions such as
`.tar.gz`); both arms of the hierarchy test return the sibling placement. -/
def get_extraction_path (ex : Extractor) (archive_path : List String × String) :
    List String × String :=
  let parent_dir := archive_path.1
  let base_name := pyStem archive_path.2
  let base_name := if strEndsWith base_name ".tar" then strDropRight base_name 4 else base_name
  if ex.maintain_hierarchy = true ∧ archive_path.1 ≠ ex.source_folder then
    (parent_dir, base_name)
  else
    (parent_dir, base_name)

/-- The placement rule as §4.2 of the spec words it: take the archive's
parent directory and its filename stem; if the stem itself ends in `.tar`,
strip that trailing `.tar` too; the target is `parent / stem`. -/
def resolve_target_spec (archive_path : List String × String) :
    List String × String :=
  let stem := pyStem archive_path.2
  let stem := if strEndsWith stem ".tar" then strDropRight stem 4 else stem
  (archive_path.1, stem)

/-- Result of one `_extract_with_cleanup` call: the boolean return value,
the resulting state of the target directory, and the increment applied to
`stats['cleaned_up']` by the call. -/
structure ExtractResult where
  success : Bool
  dir : Option (Finset String)
  cleaned_up_inc : Nat
deriving DecidableEq

/-- `SimpleExtractor._extract_with_cleanup` over an abstract target
directory. `dir` is the directory's state before the call (`none` absent,
`some s` present with entries `s`); `codec_ok` is the boolean the extract
method returns; `produced` are the entries the codec wrote into the
directory before returning. The call snapshots `existing_items`, creates
the directory when absent, runs the codec, and succeeds only when the codec
succeeded and the recomputed entry diff is nonempty; otherwise it removes
every entry of the diff, removes the directory when this call created it
and it is now empty, and bumps `cleaned_up`. -/
def extract_with_cleanup (dir : Option (Finset String)) (codec_ok : Bool)
    (produced : Finset String) : ExtractResult :=
  let existing_items : Finset String := dir.getD ∅
  let created_extraction_dir : Bool := dir.isNone
  let after_codec : Finset String := existing_items ∪ produced
  let new_items : Finset String := after_codec \ existing_items
  if codec_ok = true ∧ new_items ≠ ∅ then
    { success := true, dir := some after_codec, cleaned_up_inc := 0 }
  else
    let remaining := after_codec \ new_items
    { success := false
      dir := if created_extraction_dir = true ∧ remaining = ∅ then none else some remaining
      cleaned_up_inc := 1 }

/-- `SimpleExtractor._extract_rar`: with the `rarfile` library absent the
method prints a skip message and returns `False` without attempting a
decode; otherwise it returns the decode outcome. -/
def extract_rar (HAS_RAR : Bool) (decode_ok : Bool) : Bool :=
  if HAS_RAR = false then false else decode_ok

/-- `SimpleExtractor._extract_7z`: with the `py7zr` library absent the
method prints a skip message and returns `False` without attempting a
decode; otherwise it returns the decode outcome. -/
def extract_7z (HAS_7Z : Bool) (decode_ok : Bool) : Bool :=
  if HAS_7Z = false then false else decode_ok

/-- The four codec families of `SimpleExtractor._get_extract_method`. -/
inductive CodecKind where
  | zip
  | rar
  | sevenZ
  | tarFamily
deriving DecidableEq

/-- `SimpleExtractor._get_extract_method`: suffix dispatch on the lowercased
path; everything recognized that is not zip/rar/7z goes to the tar family. -/
def get_extract_method (file_path : String) : CodecKind :=
  if strEndsWith (strLower file_path) ".zip" then CodecKind.zip
  else if strEndsWith (strLower file_path) ".rar" then CodecKind.rar
  else if strEndsWith (strLower file_path) ".7z" then CodecKind.sevenZ
  else CodecKind.tarFamily

/-- The success bit of one extract-method invocation on `file_path`, given
the availability flags for the optional libraries and the outcome the
underlying decoder would report. -/
def codec_success (HAS_7Z HAS_RAR : Bool) (decode_ok : Bool)
    (file_path : String) : Bool :=
  match get_extract_method file_path with
  | CodecKind.rar => extract_rar HAS_RAR decode_ok
  | CodecKind.sevenZ => extract_7z HAS_7Z decode_ok
  | _ => decode_ok

/-- Environment oracle for one driver run: the state of an archive's target
directory at attempt time, the entries its codec writes there, whether the
codec reports success, the new file paths that appear in the tree after a
successful extraction, and whether `unlink` succeeds at deletion time. -/
structure Env where
  dirOf : String → List String → Option (Finset String)
  producedEntries : String → Finset String
  codec_ok : String → Bool
  produces : String → List String
  unlink_ok : String → Bool

/-- Driver state: the extractor instance, the file paths present in the
source tree, and the trace of attempts so far — one `(path, success)` pair
per per-archive progress/outcome report the driver prints. -/
structure DriverState where
  ex : Extractor
  fs : List String
  trace : List (String × Bool)
deriving DecidableEq

/-- One round's scan (`os.walk` plus the loop's filter): paths present in
the tree that are archives and are not yet in the processed set, in tree
order. -/
def scan_archives (ex : Extractor) (fs : List String) : List String :=
  fs.filter (fun p => is_archive p && decide (p ∉ ex.processed_files))

/-- The body of `extract_all`'s per-archive loop: mark the path processed
first, run the transactional extraction, add the `cleaned_up` increment,
then on success bump `extracted`, append to the pending-deletion list when
deletion was requested, and add the produced files to the tree; on failure
bump `failed` and leave the tree unchanged (the transaction rolled back). -/
def process_one (env : Env) (st : DriverState) (p : String) : DriverState :=
  let ex0 := st.ex
  let ex1 := { ex0 with processed_files := insert p ex0.processed_files }
  let r := extract_with_cleanup (env.dirOf p st.fs) (env.codec_ok p)
    (env.producedEntries p)
  let ex2 := { ex1 with cleaned_up := ex1.cleaned_up + r.cleaned_up_inc }
  if r.success = true then
    { ex := { ex2 with
        extracted := ex2.extracted + 1
        pending_deletions := ex2.pending_deletions ++
          (if ex2.delete_after = true then [p] else []) }
      fs := st.fs ++ ((env.produces p).dedup.filter (fun q => decide (q ∉ st.fs)))
      trace := st.trace ++ [(p, true)] }
  else
    { ex := { ex2 with failed := ex2.failed + 1 }
      fs := st.fs
      trace := st.trace ++ [(p, false)] }

/-- Process the archives found by one scan, in order. -/
def process_list (env : Env) (st : DriverState) : List String → DriverState
  | [] => st
  | p :: rest => process_list env (process_one env st p) rest

/-- The driver's scan loop with explicit fuel: `none` models a run that has
not reached the empty-scan exit within `fuel` rounds. -/
def run_rounds (env : Env) : Nat → DriverState → Option DriverState
  | 0, _ => none
  | fuel + 1, st =>
    let found := scan_archives st.ex st.fs
    if found = [] then some st
    else run_rounds env fuel (process_list env st found)

/-- One iteration of `_delete_archives`'s loop: a path that no longer
exists is skipped silently; on unlink success the path is removed and
counted; an unlink failure changes nothing and the loop continues. -/
def delete_one (env : Env) (st : Extractor × List String) (p : String) :
    Extractor × List String :=
  if p ∈ st.2 then
    if env.unlink_ok p = true then
      ({ st.1 with deleted := st.1.deleted + 1 }, st.2.erase p)
    else st
  else st

/-- `SimpleExtractor._delete_archives`: an early return unless deletion was
requested and the pending list is nonempty; otherwise delete the pending
paths in order. -/
def delete_archives (env : Env) (ex : Extractor) (fs : List String) :
    Extractor × List String :=
  if ex.delete_after = true ∧ ex.pending_deletions ≠ [] then
    ex.pending_deletions.foldl (delete_one env) (ex, fs)
  else (ex, fs)

/-- `SimpleExtractor.extract_all`: run scan rounds until a scan finds
nothing (`none` when `fuel` rounds do not suffice), then run the deferred
deletion pass on the resulting state. -/
def extract_all (env : Env) (fuel : Nat) (ex : Extractor) (fs : List String) :
    Option DriverState :=
  match run_rounds env fuel { ex := ex, fs := fs, trace := [] } with
  | none => none
  | some st =>
    let flushed := delete_archives env st.ex st.fs
    some { ex := flushed.1, fs := flushed.2, trace := st.trace }

/-- A concrete environment for witnesses: the target directory is always
absent, the codec never succeeds and writes nothing, and unlinks succeed. -/
def envFail : Env :=
  { dirOf := fun _ _ => none
    producedEntries := fun _ => ∅
    codec_ok := fun _ => false
    produces := fun _ => []
    unlink_ok := fun _ => true }

/-- A concrete environment in which the `rarfile` library is absent
(`HAS_RAR = false`) while the underlying decoder would succeed; target
directories are absent, successful extractions produce nothing further. -/
def envNoRar : Env :=
  { dirOf := fun _ _ => none
    producedEntries := fun p => {p ++ "/member"}
    codec_ok := fun p => codec_success true false true p
    produces := fun _ => []
    unlink_ok := fun _ => true }

/-- A concrete environment whose codec always succeeds, writing one entry
into the target directory and producing no further archive files. -/
def envOk : Env :=
  { dirOf := fun _ _ => none
    producedEntries := fun p => {p ++ "/member"}
    codec_ok := fun _ => true
    produces := fun _ => []
    unlink_ok := fun _ => true }

/-- The driver state `envFail` reaches from the single archive `x.zip` in
two rounds: one failed attempt, then an empty scan. -/
def stFail : DriverState :=
  { ex := { source_folder := ["s"], delete_after := false,
            maintain_hierarchy := false, processed_files := {"x.zip"},
            pending_deletions := [], extracted := 0, failed := 1,
            deleted := 0, cleaned_up := 1 }
    fs := ["x.zip"]
    trace := [("x.zip", false)] }

/-- The state `extract_all` under `envOk` with deletion requested reaches
from the single archive `x.zip`: one successful attempt, then an empty
scan, then the deferred deletion of the archive. -/
def stOk : DriverState :=
  { ex := { source_folder := ["s"], delete_after := true,
            maintain_hierarchy := false, processed_files := {"x.zip"},
            pending_deletions := ["x.zip"], extracted := 1, failed := 0,
            deleted := 1, cleaned_up := 0 }
    fs := []
    trace := [("x.zip", true)] }

/-- The state `extract_all` under `envNoRar` reaches from the single
archive `x.rar`: the rar codec is unavailable, so the attempt fails and is
counted in `failed`. -/
def stNoRar : DriverState :=
  { ex := { source_folder := ["s"], delete_after := false,
            maintain_hierarchy := false, processed_files := {"x.rar"},
            pending_deletions := [], extracted := 0, failed := 1,
            deleted := 0, cleaned_up := 1 }
    fs := ["x.rar"]
    trace := [("x.rar", false)] }

/-- Removing the newly added part of a union returns the original set:
the identity behind the rollback path of `_extract_with_cleanup`. -/
theorem union_sdiff_sdiff_self (e p : Finset String) :
    (e ∪ p) \ ((e ∪ p) \ e) = e := by
  rw [Finset.sdiff_sdiff_self_left, Finset.union_inter_cancel_left]

/-- The transactional extractor succeeds exactly when the codec reported
success and wrote at least one entry that was not already present. -/
theorem extract_with_cleanup_success_iff (dir : Option (Finset String))
    (codec_ok : Bool) (produced : Finset String) :
    (extract_with_cleanup dir codec_ok produced).success = true ↔
      (codec_ok = true ∧ ¬ produced ⊆ dir.getD ∅) := by
  have hkey : (dir.getD ∅ ∪ produced) \ dir.getD ∅ = ∅ ↔
      produced ⊆ dir.getD ∅ := by
    rw [Finset.union_sdiff_left, Finset.sdiff_eq_empty_iff_subset]
  simp only [extract_with_cleanup]
  split
  · next h =>
    simp only [true_iff]
    exact ⟨h.1, fun hsub => h.2 (hkey.mpr hsub)⟩
  · next h =>
    simp only [Bool.false_eq_true, false_iff, not_and, not_not]
    intro hok
    by_contra hsub
    exact h ⟨hok, fun he => hsub (hkey.mp he)⟩

/-- The `cleaned_up` increment of one transactional call is `0` on success
and `1` on failure. -/
theorem extract_with_cleanup_inc (dir : Option (Finset String))
    (codec_ok : Bool) (produced : Finset String) :
    (extract_with_cleanup dir codec_ok produced).cleaned_up_inc =
      (if (extract_with_cleanup dir codec_ok produced).success = true
        then 0 else 1) := by
  simp only [extract_with_cleanup]
  split <;> simp

/-- On failure the directory returns to its pre-attempt state; on success
it holds exactly the pre-attempt entries plus the codec's output. -/
theorem extract_with_cleanup_dir_cases (dir : Option (Finset String))
    (codec_ok : Bool) (produced : Finset String) :
    ((extract_with_cleanup dir codec_ok produced).success = false →
      (extract_with_cleanup dir codec_ok produced).dir = dir) ∧
    ((extract_with_cleanup dir codec_ok produced).success = true →
      (extract_with_cleanup dir codec_ok produced).dir =
        some (dir.getD ∅ ∪ produced)) := by
  simp only [extract_with_cleanup]
  split
  · simp
  · simp only [Bool.false_eq_true, false_implies, and_true, forall_const,
      Bool.true_eq_false, true_implies]
    cases dir with
    | none =>
      simp [union_sdiff_sdiff_self]
    | some s =>
      simp [union_sdiff_sdiff_self]

/-- Membership in one round's scan result: present in the tree, classified
as an archive, and not yet processed. -/
theorem scan_archives_mem (ex : Extractor) (fs : List String) (p : String) :
    p ∈ scan_archives ex fs ↔
      (p ∈ fs ∧ is_archive p = true ∧ p ∉ ex.processed_files) := by
  simp [scan_archives, List.mem_filter, Bool.and_eq_true, decide_eq_true_eq,
    and_assoc]

/-- A scan of a duplicate-free tree yields a duplicate-free archive list. -/
theorem scan_archives_nodup (ex : Extractor) (fs : List String)
    (h : fs.Nodup) : (scan_archives ex fs).Nodup :=
  h.filter _

/-- Everything `process_one` does to the driver state, as a function of the
attempt's success bit: the path is inserted into the processed set in both
cases, the trace gains one pair, exactly one of `extracted`/`failed` is
bumped, `cleaned_up` is bumped exactly on failure, the pending-deletion
list gains the path exactly on success with deletion requested, the tree
only grows and stays duplicate-free, and the configuration fields and the
`deleted` counter are untouched. -/
theorem process_one_spec (env : Env) (st : DriverState) (p : String) :
    ∃ b : Bool,
      (process_one env st p).trace = st.trace ++ [(p, b)] ∧
      (process_one env st p).ex.processed_files =
        insert p st.ex.processed_files ∧
      (process_one env st p).ex.pending_deletions =
        st.ex.pending_deletions ++
          (if st.ex.delete_after = true ∧ b = true then [p] else []) ∧
      (process_one env st p).ex.extracted + (process_one env st p).ex.failed =
        st.ex.extracted + st.ex.failed + 1 ∧
      (process_one env st p).ex.cleaned_up + st.ex.failed =
        (process_one env st p).ex.failed + st.ex.cleaned_up ∧
      (process_one env st p).ex.delete_after = st.ex.delete_after ∧
      (process_one env st p).ex.deleted = st.ex.deleted ∧
      st.fs <+: (process_one env st p).fs ∧
      (st.fs.Nodup → (process_one env st p).fs.Nodup) := by
  have hinc := extract_with_cleanup_inc (env.dirOf p st.fs) (env.codec_ok p)
    (env.producedEntries p)
  simp only [process_one]
  split
  · next hsucc =>
    rw [hsucc] at hinc
    simp only [if_pos rfl] at hinc
    refine ⟨true, rfl, rfl, by simp, by simp; omega, by simp [hinc]; omega,
      rfl, rfl, List.prefix_append _ _, fun hnd => ?_⟩
    rw [List.nodup_append]
    refine ⟨hnd, (List.nodup_dedup _).filter _, fun a ha hamem => ?_⟩
    have := List.of_mem_filter hamem
    simp only [decide_eq_true_eq] at this
    exact this ha
  · next hsucc =>
    have hfalse : (extract_with_cleanup (env.dirOf p st.fs) (env.codec_ok p)
        (env.producedEntries p)).success = false := by
      cases h : (extract_with_cleanup (env.dirOf p st.fs) (env.codec_ok p)
          (env.producedEntries p)).success with
      | false => rfl
      | true => exact absurd h hsucc
    rw [hfalse] at hinc
    simp only [Bool.false_eq_true, if_false] at hinc
    refine ⟨false, rfl, rfl, by simp, by simp; omega, by simp [hinc]; omega,
      rfl, rfl, List.prefix_refl _, fun hnd => hnd⟩

/-- Everything one round's processing pass does, accumulated over the list
of archives found by the scan: the trace gains one pair per archive in
order, every found path enters the processed set, `extracted + failed`
grows by the number of archives, `cleaned_up` grows in step with `failed`,
the pending-deletion list gains exactly the successful paths (when deletion
is requested), and the tree only grows and stays duplicate-free. -/
theorem process_list_spec (env : Env) (l : List String) :
    ∀ st : DriverState,
      ∃ tnew : List (String × Bool),
        (process_list env st l).trace = st.trace ++ tnew ∧
        tnew.map Prod.fst = l ∧
        (process_list env st l).ex.processed_files =
          st.ex.processed_files ∪ l.toFinset ∧
        (process_list env st l).ex.pending_deletions =
          st.ex.pending_deletions ++
            (if st.ex.delete_after = true
              then (tnew.filter Prod.snd).map Prod.fst else []) ∧
        (process_list env st l).ex.extracted +
            (process_list env st l).ex.failed =
          st.ex.extracted + st.ex.failed + l.length ∧
        (process_list env st l).ex.cleaned_up + st.ex.failed =
          (process_list env st l).ex.failed + st.ex.cleaned_up ∧
        (process_list env st l).ex.delete_after = st.ex.delete_after ∧
        (process_list env st l).ex.deleted = st.ex.deleted ∧
        st.fs <+: (process_list env st l).fs ∧
        (st.fs.Nodup → (process_list env st l).fs.Nodup) := by
  induction l with
  | nil =>
    intro st
    exact ⟨[], by simp [process_list], rfl, by simp [process_list],
      by simp [process_list], by simp [process_list],
      by simp [process_list]; omega, rfl, rfl, List.prefix_refl _,
      fun hnd => hnd⟩
  | cons p rest ih =>
    intro st
    obtain ⟨b, h1, h2, h3, h4, h5, h6, h7, h8, h9⟩ := process_one_spec env st p
    obtain ⟨t2, g1, g2, g3, g4, g5, g6, g7, g8, g9, g10⟩ :=
      ih (process_one env st p)
    refine ⟨(p, b) :: t2, ?_, ?_, ?_, ?_, ?_, ?_, ?_, ?_, ?_, ?_⟩
    · show (process_list env (process_one env st p) rest).trace = _
      rw [g1, h1, List.append_assoc, List.singleton_append]
    · simp [g2]
    · show (process_list env (process_one env st p) rest).ex.processed_files = _
      rw [g3, h2, List.toFinset_cons, Finset.insert_union, Finset.union_insert]
    · show (process_list env (process_one env st p) rest).ex.pending_deletions = _
      rw [g4, h3, h6]
      by_cases hd : st.ex.delete_after = true
      · cases b <;>
          simp [hd, List.filter_cons, List.append_assoc]
      · simp [hd]
    · have hlen : (p :: rest).length = rest.length + 1 := by simp
      show (process_list env (process_one env st p) rest).ex.extracted +
          (process_list env (process_one env st p) rest).ex.failed = _
      rw [hlen]
      omega
    · show (process_list env (process_one env st p) rest).ex.cleaned_up +
          st.ex.failed =
        (process_list env (process_one env st p) rest).ex.failed +
          st.ex.cleaned_up
      omega
    · exact g7.trans h6
    · exact g8.trans h7
    · exact h8.trans g9
    · exact fun hnd => g10 (h9 hnd)

/-- The accumulated effect of the scan loop between its start state and the
state in which the empty scan ends it: the trace extends by one pair per
newly discovered archive, no archive is attempted twice, every attempted
archive was unprocessed at discovery and classified as an archive and is
still in the tree at loop end, the processed set grows by exactly the
attempted paths, the pending-deletion list gains exactly the successful
paths (when deletion is requested), `extracted + failed` grows by the
number of attempts, `cleaned_up` grows in step with `failed`, the
configuration and the `deleted` counter are untouched, and the tree only
grows and stays duplicate-free. -/
theorem run_rounds_spec (env : Env) :
    ∀ (fuel : Nat) (st st' : DriverState),
      st.fs.Nodup →
      run_rounds env fuel st = some st' →
      ∃ tnew : List (String × Bool),
        st'.trace = st.trace ++ tnew ∧
        (tnew.map Prod.fst).Nodup ∧
        (∀ q ∈ tnew, q.1 ∉ st.ex.processed_files ∧ is_archive q.1 = true ∧
          q.1 ∈ st'.fs) ∧
        st'.ex.processed_files =
          st.ex.processed_files ∪ (tnew.map Prod.fst).toFinset ∧
        st'.ex.pending_deletions = st.ex.pending_deletions ++
          (if st.ex.delete_after = true
            then (tnew.filter Prod.snd).map Prod.fst else []) ∧
        st'.ex.extracted + st'.ex.failed =
          st.ex.extracted + st.ex.failed + tnew.length ∧
        st'.ex.cleaned_up + st.ex.failed = st'.ex.failed + st.ex.cleaned_up ∧
        st'.ex.delete_after = st.ex.delete_after ∧
        st'.ex.deleted = st.ex.deleted ∧
        st.fs <+: st'.fs ∧
        st'.fs.Nodup := by
  intro fuel
  induction fuel with
  | zero =>
    intro st st' _ h
    exact absurd h (by simp [run_rounds])
  | succ fuel ih =>
    intro st st' hnd h
    simp only [run_rounds] at h
    split at h
    · next hempty =>
      obtain rfl : st = st' := by injection h
      refine ⟨[], by simp, List.nodup_nil, by simp, by simp, by simp, by simp,
        by omega, rfl, rfl, List.prefix_refl _, hnd⟩
    · next hne =>
      obtain ⟨t1, p1, p2, p3, p4, p5, p6, p7, p8, p9, p10⟩ :=
        process_list_spec env (scan_archives st.ex st.fs) st
      obtain ⟨t2, q1, q2, q3, q4, q5, q6, q7, q8, q9, q10, q11⟩ :=
        ih (process_list env st (scan_archives st.ex st.fs)) st' (p10 hnd) h
      refine ⟨t1 ++ t2, ?_, ?_, ?_, ?_, ?_, ?_, ?_, ?_, ?_, ?_, q11⟩
      · rw [q1, p1, List.append_assoc]
      · rw [List.map_append, List.nodup_append, p2]
        refine ⟨scan_archives_nodup _ _ hnd, q2, fun a ha hb => ?_⟩
        obtain ⟨q, hq, rfl⟩ := List.mem_map.mp hb
        exact (q3 q hq).1 (by
          rw [p3]
          exact Finset.mem_union_right _ (List.mem_toFinset.mpr ha))
      · intro q hq
        rcases List.mem_append.mp hq with hq1 | hq2
        · have hfound : q.1 ∈ scan_archives st.ex st.fs := by
            rw [← p2]
            exact List.mem_map.mpr ⟨q, hq1, rfl⟩
          obtain ⟨hfs, harch, hproc⟩ := (scan_archives_mem _ _ _).mp hfound
          exact ⟨hproc, harch, q10.subset (p9.subset hfs)⟩
        · obtain ⟨hproc, harch, hfs⟩ := q3 q hq2
          refine ⟨fun hmem => hproc ?_, harch, hfs⟩
          rw [p3]
          exact Finset.mem_union_left _ hmem
      · rw [q4, p3, List.map_append, List.toFinset_append, p2,
          Finset.union_assoc]
      · rw [q5, p4, p7, List.filter_append, List.map_append]
        by_cases hd : st.ex.delete_after = true
        · simp [hd, List.append_assoc]
        · simp [hd]
      · have hlen : (t1 ++ t2).length = t1.length + t2.length :=
          List.length_append _ _
        have hlen1 : t1.length = (scan_archives st.ex st.fs).length := by
          rw [← p2, List.length_map]
        omega
      · omega
      · exact q8.trans p7
      · exact q9.trans p8
      · exact p9.trans q10

/-- One deletion step can only remove the path it handles: membership
afterwards implies membership before, duplicate-freeness is preserved, any
other path survives, and every extractor field except `deleted` is
untouched. -/
theorem delete_one_spec (env : Env) (st : Extractor × List String)
    (a : String) :
    (∀ q, q ∈ (delete_one env st a).2 → q ∈ st.2) ∧
    (st.2.Nodup → (delete_one env st a).2.Nodup) ∧
    (∀ q, q ∈ st.2 → q ≠ a → q ∈ (delete_one env st a).2) ∧
    (delete_one env st a).1.extracted = st.1.extracted ∧
    (delete_one env st a).1.failed = st.1.failed ∧
    (delete_one env st a).1.cleaned_up = st.1.cleaned_up ∧
    (delete_one env st a).1.processed_files = st.1.processed_files ∧
    (delete_one env st a).1.pending_deletions = st.1.pending_deletions ∧
    (delete_one env st a).1.delete_after = st.1.delete_after := by
  simp only [delete_one]
  split
  · split
    · exact ⟨fun q h => List.mem_of_mem_erase h, fun h => h.erase _,
        fun q hq hne => (List.mem_erase_of_ne hne).mpr hq,
        rfl, rfl, rfl, rfl, rfl, rfl⟩
    · exact ⟨fun q h => h, id, fun q h _ => h, rfl, rfl, rfl, rfl, rfl, rfl⟩
  · exact ⟨fun q h => h, id, fun q h _ => h, rfl, rfl, rfl, rfl, rfl, rfl⟩

/-- Folding the deletion step over a whole pending list can only remove
paths that are in the list; everything else about the state is as for one
step. -/
theorem delete_fold_spec (env : Env) (l : List String) :
    ∀ st : Extractor × List String,
      (∀ q, q ∈ (l.foldl (delete_one env) st).2 → q ∈ st.2) ∧
      (st.2.Nodup → (l.foldl (delete_one env) st).2.Nodup) ∧
      (∀ q, q ∈ st.2 → q ∉ l → q ∈ (l.foldl (delete_one env) st).2) ∧
      (l.foldl (delete_one env) st).1.extracted = st.1.extracted ∧
      (l.foldl (delete_one env) st).1.failed = st.1.failed ∧
      (l.foldl (delete_one env) st).1.cleaned_up = st.1.cleaned_up ∧
      (l.foldl (delete_one env) st).1.processed_files = st.1.processed_files ∧
      (l.foldl (delete_one env) st).1.pending_deletions =
        st.1.pending_deletions ∧
      (l.foldl (delete_one env) st).1.delete_after = st.1.delete_after := by
  induction l with
  | nil =>
    intro st
    exact ⟨fun q h => h, id, fun q h _ => h, rfl, rfl, rfl, rfl, rfl, rfl⟩
  | cons a l ihl =>
    intro st
    simp only [List.foldl_cons]
    obtain ⟨s1, s2, s3, s4, s5, s6, s7, s8, s9⟩ := delete_one_spec env st a
    obtain ⟨f1, f2, f3, f4, f5, f6, f7, f8, f9⟩ := ihl (delete_one env st a)
    refine ⟨fun q h => s1 q (f1 q h), fun h => f2 (s2 h), fun q hq hql => ?_,
      f4.trans s4, f5.trans s5, f6.trans s6, f7.trans s7, f8.trans s8,
      f9.trans s9⟩
    have hne : q ≠ a := fun he => hql (he ▸ List.mem_cons_self a l)
    exact f3 q (s3 q hq hne) (fun hl => hql (List.mem_cons_of_mem a hl))

/-- Every pending path that still exists and whose unlink succeeds is gone
after the deletion fold, regardless of the outcomes for the other paths. -/
theorem delete_fold_removes (env : Env) (l : List String) :
    ∀ st : Extractor × List String, st.2.Nodup →
      ∀ q, q ∈ l → env.unlink_ok q = true →
        q ∉ (l.foldl (delete_one env) st).2 := by
  induction l with
  | nil =>
    intro st _ q hq
    exact absurd hq (List.not_mem_nil q)
  | cons a l ihl =>
    intro st hnd q hq hok
    simp only [List.foldl_cons]
    obtain ⟨s1, s2, s3, s4, s5, s6, s7, s8, s9⟩ := delete_one_spec env st a
    rcases List.mem_cons.mp hq with rfl | hmem
    · have hnot : q ∉ (delete_one env st q).2 := by
        by_cases hin : q ∈ st.2
        · have heq : delete_one env st q =
              ({ st.1 with deleted := st.1.deleted + 1 }, st.2.erase q) := by
            simp only [delete_one, if_pos hin, if_pos hok]
          rw [heq]
          exact hnd.not_mem_erase
        · have heq : delete_one env st q = st := by
            simp only [delete_one, if_neg hin]
          rw [heq]
          exact hin
      intro hqfin
      exact hnot ((delete_fold_spec env l (delete_one env st q)).1 q hqfin)
    · exact ihl (delete_one env st a) (s2 hnd) q hmem hok

/-- `_delete_archives` as the claims see it: it removes only paths of the
pending-deletion list, removes every still-existing pending path whose
unlink succeeds, and leaves every extractor field except `deleted`
untouched. -/
theorem delete_archives_spec (env : Env) (ex : Extractor)
    (fs : List String) :
    (∀ q, q ∈ (delete_archives env ex fs).2 → q ∈ fs) ∧
    (∀ q, q ∈ fs → q ∉ ex.pending_deletions →
      q ∈ (delete_archives env ex fs).2) ∧
    (fs.Nodup → ∀ q, q ∈ ex.pending_deletions → env.unlink_ok q = true →
      ex.delete_after = true → q ∉ (delete_archives env ex fs).2) ∧
    (delete_archives env ex fs).1.extracted = ex.extracted ∧
    (delete_archives env ex fs).1.failed = ex.failed ∧
    (delete_archives env ex fs).1.cleaned_up = ex.cleaned_up ∧
    (delete_archives env ex fs).1.processed_files = ex.processed_files ∧
    (delete_archives env ex fs).1.pending_deletions =
      ex.pending_deletions := by
  simp only [delete_archives]
  split
  · next hcond =>
    obtain ⟨f1, f2, f3, f4, f5, f6, f7, f8, f9⟩ :=
      delete_fold_spec env ex.pending_deletions (ex, fs)
    exact ⟨f1, fun q hq hnp => f3 q hq hnp,
      fun hnd q hq hok _ =>
        delete_fold_removes env ex.pending_deletions (ex, fs) hnd q hq hok,
      f4, f5, f6, f7, f8⟩
  · next hcond =>
    refine ⟨fun q h => h, fun q h _ => h, fun hnd q hq hok hda => ?_,
      rfl, rfl, rfl, rfl, rfl⟩
    exact absurd ⟨hda, List.ne_nil_of_mem hq⟩ hcond

/-- C1: when the attempt fails — the codec reports failure or no entry
beyond the pre-attempt ones was produced — `_extract_with_cleanup` leaves
the target directory in its pre-attempt state (a directory the call created
is removed again); on success the directory holds the pre-attempt entries
plus the newly decoded ones, and no third final state exists. -/
theorem extract_with_cleanup_transactional (dir : Option (Finset String))
    (codec_ok : Bool) (produced : Finset String) :
    ((codec_ok = false ∨ produced ⊆ dir.getD ∅) →
      (extract_with_cleanup dir codec_ok produced).success = false ∧
      (extract_with_cleanup dir codec_ok produced).dir = dir) ∧
    ((extract_with_cleanup dir codec_ok produced).success = true →
      (extract_with_cleanup dir codec_ok produced).dir =
        some (dir.getD ∅ ∪ produced)) ∧
    ((extract_with_cleanup dir codec_ok produced).dir = dir ∨
      (extract_with_cleanup dir codec_ok produced).dir =
        some (dir.getD ∅ ∪ produced)) := by
  have hd := extract_with_cleanup_dir_cases dir codec_ok produced
  have hs := extract_with_cleanup_success_iff dir codec_ok produced
  refine ⟨fun h => ?_, hd.2, ?_⟩
  · have hns : ¬ (codec_ok = true ∧ ¬ produced ⊆ dir.getD ∅) := by
      rcases h with h | h
      · rintro ⟨h1, _⟩
        rw [h] at h1
        exact Bool.false_ne_true h1
      · rintro ⟨_, h2⟩
        exact h2 h
    have hfail : (extract_with_cleanup dir codec_ok produced).success = false := by
      cases hsucc : (extract_with_cleanup dir codec_ok produced).success with
      | false => rfl
      | true => exact absurd (hs.mp hsucc) hns
    exact ⟨hfail, hd.1 hfail⟩
  · cases hsucc : (extract_with_cleanup dir codec_ok produced).success with
    | false => exact Or.inl (hd.1 hsucc)
    | true => exact Or.inr (hd.2 hsucc)

/-- Witness for C1: a failing codec on a directory that already holds one
entry leaves the directory exactly as it was. -/
theorem extract_with_cleanup_transactional_witness :
    ((false : Bool) = false ∨ ({"b"} : Finset String) ⊆
      ((some ({"a"} : Finset String)).getD ∅)) ∧
    ((extract_with_cleanup (some {"a"}) false {"b"}).success = false ∧
      (extract_with_cleanup (some {"a"}) false {"b"}).dir = some {"a"}) :=
  ⟨Or.inl rfl,
    (extract_with_cleanup_transactional (some {"a"}) false {"b"}).1 (Or.inl rfl)⟩

/-- C4: even when the codec reports success, an attempt whose entry diff
against the pre-snapshot is empty is treated as a failure. -/
theorem extract_with_cleanup_no_output (dir : Option (Finset String))
    (produced : Finset String) (h : produced ⊆ dir.getD ∅) :
    (extract_with_cleanup dir true produced).success = false := by
  have hs := extract_with_cleanup_success_iff dir true produced
  cases hsucc : (extract_with_cleanup dir true produced).success with
  | false => rfl
  | true => exact absurd (hs.mp hsucc).2 (not_not_intro h)

/-- Witness for C4: a codec that succeeds but only rewrites an entry that
was already present yields a failed attempt. -/
theorem extract_with_cleanup_no_output_witness :
    ({"a"} : Finset String) ⊆ ((some ({"a"} : Finset String)).getD ∅) ∧
    (extract_with_cleanup (some {"a"}) true {"a"}).success = false :=
  ⟨by decide, extract_with_cleanup_no_output (some {"a"}) {"a"} (by decide)⟩

/-- C8: `is_archive` returns true iff the lowercased path ends with one of
the nine recognized suffixes, and in particular it is true on
`x.zip, x.tar.gz, x.tar.bz2, x.tgz, x.rar, x.7z, x.gz, x.bz2` and false on
`x.txt, x.pdf, x`. -/
theorem is_archive_suffix_characterization :
    (∀ s : String, is_archive s = true ↔
      (strEndsWith (strLower s) ".zip" = true ∨ strEndsWith (strLower s) ".rar" = true ∨
       strEndsWith (strLower s) ".7z" = true ∨ strEndsWith (strLower s) ".tar" = true ∨
       strEndsWith (strLower s) ".gz" = true ∨ strEndsWith (strLower s) ".bz2" = true ∨
       strEndsWith (strLower s) ".tgz" = true ∨ strEndsWith (strLower s) ".tar.gz" = true ∨
       strEndsWith (strLower s) ".tar.bz2" = true)) ∧
    is_archive "x.zip" = true ∧ is_archive "x.tar.gz" = true ∧
    is_archive "x.tar.bz2" = true ∧ is_archive "x.tgz" = true ∧
    is_archive "x.rar" = true ∧ is_archive "x.7z" = true ∧
    is_archive "x.gz" = true ∧ is_archive "x.bz2" = true ∧
    is_archive "x.txt" = false ∧ is_archive "x.pdf" = false ∧
    is_archive "x" = false := by
  refine ⟨fun s => ?_, by decide, by decide, by decide, by decide, by decide,
    by decide, by decide, by decide, by decide, by decide, by decide⟩
  simp only [is_archive, archive_extensions, List.any_cons, List.any_nil,
    Bool.or_eq_true, Bool.false_eq_true, or_false]

/-- C6: for every extractor configuration, the resolved extraction target is
the archive's parent joined with its stem, a stem ending in `.tar` losing
that suffix as well; `a/b.tar.gz` resolves to `a/b` and `a/b.zip` to `a/b`. -/
theorem get_extraction_path_stem_rule :
    (∀ (ex : Extractor) (p : List String × String),
      get_extraction_path ex p = resolve_target_spec p) ∧
    get_extraction_path (Extractor.init ["a"] false false) (["a"], "b.tar.gz") =
      (["a"], "b") ∧
    get_extraction_path (Extractor.init ["a"] false false) (["a"], "b.zip") =
      (["a"], "b") := by
  refine ⟨fun ex p => ?_, by decide, by decide⟩
  simp [get_extraction_path, resolve_target_spec]

/-- C7: the resolved extraction target does not depend on the
`maintain_hierarchy` flag: nested and flat mode place identically. -/
theorem get_extraction_path_mode_irrelevant
    (ex : Extractor) (b : Bool) (p : List String × String) :
    get_extraction_path { ex with maintain_hierarchy := b } p =
      get_extraction_path ex p := by
  simp [get_extraction_path]

/-- C2: a scan only collects archive paths that are not yet processed; a
processed path is inserted into the processed set by its processing step
whether or not the attempt succeeds; the processed set only grows across
the loop; and in a full run no path is attempted twice and every attempted
path ends in the processed set. -/
theorem driver_processed_once (env : Env) :
    (∀ (ex : Extractor) (fs : List String) (p : String),
      p ∈ scan_archives ex fs →
        is_archive p = true ∧ p ∈ fs ∧ p ∉ ex.processed_files) ∧
    (∀ (st : DriverState) (p : String),
      (process_one env st p).ex.processed_files =
        insert p st.ex.processed_files) ∧
    (∀ (fuel : Nat) (st st' : DriverState), st.fs.Nodup →
      run_rounds env fuel st = some st' →
      st.ex.processed_files ⊆ st'.ex.processed_files) ∧
    (∀ (fuel : Nat) (sf : List String) (d m : Bool) (fs : List String)
      (st' : DriverState), fs.Nodup →
      run_rounds env fuel
        { ex := Extractor.init sf d m, fs := fs, trace := [] } = some st' →
      (st'.trace.map Prod.fst).Nodup ∧
      ∀ q ∈ st'.trace, q.1 ∈ st'.ex.processed_files) := by
  refine ⟨?_, ?_, ?_, ?_⟩
  · intro ex fs p hp
    obtain ⟨h1, h2, h3⟩ := (scan_archives_mem ex fs p).mp hp
    exact ⟨h2, h1, h3⟩
  · intro st p
    obtain ⟨b, _, h2, _⟩ := process_one_spec env st p
    exact h2
  · intro fuel st st' hnd h
    obtain ⟨tnew, _, _, _, h4, _⟩ := run_rounds_spec env fuel st st' hnd h
    rw [h4]
    exact Finset.subset_union_left
  · intro fuel sf d m fs st' hnd h
    obtain ⟨tnew, h1, h2, h3, h4, _⟩ := run_rounds_spec env fuel _ st' hnd h
    rw [h1]
    simp only [List.nil_append]
    refine ⟨h2, fun q hq => ?_⟩
    rw [h4]
    exact Finset.mem_union_right _
      (List.mem_toFinset.mpr (List.mem_map.mpr ⟨q, hq, rfl⟩))

/-- Witness for C2: the failing single-archive run attempts `x.zip` exactly
once and leaves it in the processed set. -/
theorem driver_processed_once_witness :
    (["x.zip"] : List String).Nodup ∧
    ((stFail.trace.map Prod.fst).Nodup ∧
      ∀ q ∈ stFail.trace, q.1 ∈ stFail.ex.processed_files) :=
  ⟨by decide,
    (driver_processed_once envFail).2.2.2 2 ["s"] false false ["x.zip"] stFail
      (by decide) (by decide)⟩

/-- C9: after a full run (scan loop plus deferred deletion), the extracted
and failed counters sum to the number of paths added to the processed set
during the run. -/
theorem driver_counts_processed (env : Env) (fuel : Nat) (sf : List String)
    (d m : Bool) (fs : List String) (res : DriverState)
    (hnd : fs.Nodup)
    (h : extract_all env fuel (Extractor.init sf d m) fs = some res) :
    res.ex.extracted + res.ex.failed = res.ex.processed_files.card := by
  rw [extract_all] at h
  cases hrun : run_rounds env fuel
      { ex := Extractor.init sf d m, fs := fs, trace := [] } with
  | none =>
    rw [hrun] at h
    exact absurd h (by simp)
  | some mid =>
    rw [hrun] at h
    simp only [Option.some.injEq] at h
    obtain ⟨tnew, h1, h2, h3, h4, h5, h6, _⟩ :=
      run_rounds_spec env fuel _ mid hnd hrun
    obtain ⟨_, _, _, f4, f5, _, f7, _⟩ :=
      delete_archives_spec env mid.ex mid.fs
    have hres : res.ex = (delete_archives env mid.ex mid.fs).1 := by
      rw [← h]
    rw [hres, f4, f5, f7, h4, h6]
    simp only [Extractor.init, Finset.empty_union]
    rw [List.toFinset_card_of_nodup h2, List.length_map]
    omega

/-- Witness for C9: in the failing single-archive run one path was
processed and the counters sum to one. -/
theorem driver_counts_processed_witness :
    (["x.zip"] : List String).Nodup ∧
    stFail.ex.extracted + stFail.ex.failed = stFail.ex.processed_files.card :=
  ⟨by decide,
    driver_counts_processed envFail 2 ["s"] false false ["x.zip"] stFail
      (by decide) (by decide)⟩

/-- C10: one transactional call bumps `cleaned_up` by exactly one on every
failed attempt (in the embedding the target directory always exists at
cleanup time, the call having created it) and by zero on success; hence
after any full run `cleaned_up` is at most `failed`. -/
theorem cleaned_up_tracks_failures :
    (∀ (dir : Option (Finset String)) (ok : Bool) (prod : Finset String),
      ((extract_with_cleanup dir ok prod).success = false →
        (extract_with_cleanup dir ok prod).cleaned_up_inc = 1) ∧
      ((extract_with_cleanup dir ok prod).success = true →
        (extract_with_cleanup dir ok prod).cleaned_up_inc = 0)) ∧
    (∀ (env : Env) (fuel : Nat) (sf : List String) (d m : Bool)
      (fs : List String) (res : DriverState), fs.Nodup →
      extract_all env fuel (Extractor.init sf d m) fs = some res →
      res.ex.cleaned_up ≤ res.ex.failed) := by
  constructor
  · intro dir ok prod
    have hinc := extract_with_cleanup_inc dir ok prod
    constructor
    · intro hf
      rw [hf] at hinc
      simpa using hinc
    · intro ht
      rw [ht] at hinc
      simpa using hinc
  · intro env fuel sf d m fs res hnd h
    rw [extract_all] at h
    cases hrun : run_rounds env fuel
        { ex := Extractor.init sf d m, fs := fs, trace := [] } with
    | none =>
      rw [hrun] at h
      exact absurd h (by simp)
    | some mid =>
      rw [hrun] at h
      simp only [Option.some.injEq] at h
      obtain ⟨tnew, _, _, _, _, _, _, h7, _⟩ :=
        run_rounds_spec env fuel _ mid hnd hrun
      obtain ⟨_, _, _, _, f5, f6, _⟩ :=
        delete_archives_spec env mid.ex mid.fs
      have hres : res.ex = (delete_archives env mid.ex mid.fs).1 := by
        rw [← h]
      rw [hres, f5, f6]
      simp only [Extractor.init] at h7
      omega

/-- Witness for C10: a failing call on an absent directory has increment
one, and in the failing single-archive run `cleaned_up = failed = 1`. -/
theorem cleaned_up_tracks_failures_witness :
    ((extract_with_cleanup none false ∅).success = false →
      (extract_with_cleanup none false ∅).cleaned_up_inc = 1) ∧
    stFail.ex.cleaned_up ≤ stFail.ex.failed :=
  ⟨(cleaned_up_tracks_failures.1 none false ∅).1,
    cleaned_up_tracks_failures.2 envFail 2 ["s"] false false ["x.zip"] stFail
      (by decide) (by decide)⟩

/-- C3: deletion happens only in the deferred pass after the scan loop
ends — the loop itself never removes a file from the tree; at flush time
the pending-deletion list holds exactly the successful attempts' paths (and
only when deletion was requested); a path whose attempt failed is still
present after the whole run; a pending path that no longer exists is
skipped silently; and a still-existing pending path whose unlink succeeds
is deleted no matter how the other deletions fare. -/
theorem deferred_deletion (env : Env) (fuel : Nat) (sf : List String)
    (d m : Bool) (fs : List String) (res : DriverState)
    (hnd : fs.Nodup)
    (h : extract_all env fuel (Extractor.init sf d m) fs = some res) :
    (∃ mid : DriverState,
      run_rounds env fuel
        { ex := Extractor.init sf d m, fs := fs, trace := [] } = some mid ∧
      fs <+: mid.fs ∧
      res.ex.pending_deletions = mid.ex.pending_deletions ∧
      mid.ex.pending_deletions =
        (if d = true then (mid.trace.filter Prod.snd).map Prod.fst else []) ∧
      (∀ q ∈ mid.fs, q ∉ mid.ex.pending_deletions → q ∈ res.fs)) ∧
    (∀ p : String, (p, false) ∈ res.trace → p ∈ fs → p ∈ res.fs) ∧
    (∀ (st : Extractor × List String) (p : String), p ∉ st.2 →
      delete_one env st p = st) ∧
    (∀ (ex2 : Extractor) (fs2 : List String), ex2.delete_after = true →
      fs2.Nodup → ∀ q ∈ ex2.pending_deletions, env.unlink_ok q = true →
        q ∉ (delete_archives env ex2 fs2).2) := by
  rw [extract_all] at h
  cases hrun : run_rounds env fuel
      { ex := Extractor.init sf d m, fs := fs, trace := [] } with
  | none =>
    rw [hrun] at h
    exact absurd h (by simp)
  | some mid =>
    rw [hrun] at h
    simp only [Option.some.injEq] at h
    obtain ⟨tnew, h1, h2, h3, h4, h5, h6, h7, h8, h9, h10, h11⟩ :=
      run_rounds_spec env fuel _ mid hnd hrun
    obtain ⟨f1, f2, f3, f4, f5, f6, f7, f8⟩ :=
      delete_archives_spec env mid.ex mid.fs
    have hresex : res.ex = (delete_archives env mid.ex mid.fs).1 := by
      rw [← h]
    have hresfs : res.fs = (delete_archives env mid.ex mid.fs).2 := by
      rw [← h]
    have hrestr : res.trace = mid.trace := by
      rw [← h]
    have hpend : mid.ex.pending_deletions =
        (if d = true then (mid.trace.filter Prod.snd).map Prod.fst else []) := by
      rw [h5, h1]
      simp [Extractor.init]
    refine ⟨⟨mid, rfl, h10, ?_, hpend, ?_⟩, ?_, ?_, ?_⟩
    · rw [hresex, f8]
    · intro q hq hnp
      rw [hresfs]
      exact f2 q hq hnp
    · intro p hpf hpfs
      have hptr : (p, false) ∈ tnew := by
        have := hrestr ▸ hpf
        rw [h1] at this
        simpa using this
      have hnotpend : p ∉ mid.ex.pending_deletions := by
        rw [hpend]
        intro hmem
        by_cases hd : d = true
        · rw [if_pos hd] at hmem
          obtain ⟨q, hqf, hq1⟩ := List.mem_map.mp hmem
          obtain ⟨hqt, hqs⟩ := List.mem_filter.mp hqf
          rw [h1] at hqt
          simp only [List.nil_append] at hqt
          have hq : q = (p, true) := by
            cases q with
            | mk q1 q2 =>
              simp only at hq1 hqs
              rw [hq1, hqs]
          rw [hq] at hqt
          have := List.inj_on_of_nodup_map h2 hptr hqt rfl
          simp at this
        · rw [if_neg hd] at hmem
          exact List.not_mem_nil p hmem
      rw [hresfs]
      exact f2 p (h10.subset hpfs) hnotpend
    · intro st p hp
      simp only [delete_one, if_neg hp]
    · intro ex2 fs2 hda hnd2 q hq hok
      exact (delete_archives_spec env ex2 fs2).2.2.1 hnd2 q hq hok hda

/-- Witness for C3: with deletion requested, the successfully extracted
`x.zip` is pending at loop end and gone afterwards, while the deletion-step
and deletion-pass clauses hold at concrete inputs. -/
theorem deferred_deletion_witness :
    (["x.zip"] : List String).Nodup ∧
    (∀ p : String, (p, false) ∈ stOk.trace → p ∈ ["x.zip"] → p ∈ stOk.fs) :=
  ⟨by decide,
    (deferred_deletion envOk 2 ["s"] true false ["x.zip"] stOk
      (by decide) (by decide)).2.1⟩

/-- C5 counterexample: with the `rarfile` library absent, the skipped rar
archive is counted in the `failed` counter — the run statistics report it
as an extraction failure, not as an outcome distinct from failure. -/
theorem rar_skip_counted_as_failure :
    extract_rar false true = false ∧
    extract_all envNoRar 2 (Extractor.init ["s"] false false) ["x.rar"] =
      some stNoRar ∧
    stNoRar.ex.failed = 1 ∧ stNoRar.ex.extracted = 0 := by
  refine ⟨rfl, by decide, rfl, rfl⟩

/-- C5 amended: with the optional library absent the rar/7z extract method
returns failure without attempting a decode, and the driver counts such an
archive in the `failed` counter (the statistics have no separate
skipped-format outcome), not in `extracted`. -/
theorem missing_codec_counted_failed (env : Env) (st : DriverState)
    (p : String) (h : env.codec_ok p = false) :
    (∀ ok : Bool, extract_rar false ok = false) ∧
    (∀ ok : Bool, extract_7z false ok = false) ∧
    (process_one env st p).ex.failed = st.ex.failed + 1 ∧
    (process_one env st p).ex.extracted = st.ex.extracted := by
  have hfail : (extract_with_cleanup (env.dirOf p st.fs) (env.codec_ok p)
      (env.producedEntries p)).success = false := by
    cases hs : (extract_with_cleanup (env.dirOf p st.fs) (env.codec_ok p)
        (env.producedEntries p)).success with
    | false => rfl
    | true =>
      obtain ⟨hok, _⟩ := (extract_with_cleanup_success_iff _ _ _).mp hs
      rw [h] at hok
      exact absurd hok (by simp)
  refine ⟨fun ok => rfl, fun ok => rfl, ?_, ?_⟩ <;>
    simp [process_one, hfail]

/-- Witness for the amended C5: `envNoRar` fails on `x.rar`, and processing
it bumps the failed counter of a fresh extractor from zero to one. -/
theorem missing_codec_counted_failed_witness :
    envNoRar.codec_ok "x.rar" = false ∧
    (process_one envNoRar
      { ex := Extractor.init ["s"] false false, fs := ["x.rar"], trace := [] }
      "x.rar").ex.failed = (Extractor.init ["s"] false false).failed + 1 :=
  ⟨by decide,
    (missing_codec_counted_failed envNoRar
      { ex := Extractor.init ["s"] false false, fs := ["x.rar"], trace := [] }
      "x.rar" (by decide)).2.2.1⟩

end Unfolder
